import Mathlib

/-!
Verification of the `template-processor` library (`src/class/Processor.class.ts`).

The development shallowly embeds the DOM fragments the library manipulates and
the library's operations:

* `Elem` — an element node (tag name plus child elements); a template's
  `content` is a document fragment, modelled as the list of its child elements.
* `DNode` — a node inside a container element: either a `<template>` element
  (whose content is a separate fragment, invisible to selector queries on the
  container) or an ordinary element.
* `HTMLElement` — a container element: its tag name and its child nodes.
* `checkDOM` — the structural validator (returns the content of the first
  `<template>` descendant, or the thrown error).
* `DOMState`/`Processor` — a small store of fragments (indices play the role of
  object references) over which the processing methods are defined; mutation of
  a fragment by a fill function is modelled by updating the store at its
  reference, and `cloneNode` allocates a fresh reference holding a copy.
* Futures are modelled as a resolution time together with the resolved value;
  an asynchronous fill function reports the delay it takes to complete.
-/

namespace TemplateProcessor

/-- An element node: a tag name and the list of child elements. -/
inductive Elem where
  | mk (tag : String) (children : List Elem)

/-- Tag name of an element. -/
def Elem.tag : Elem → String
  | .mk t _ => t

/-- Child elements of an element. -/
def Elem.children : Elem → List Elem
  | .mk _ cs => cs

/-- A node occurring inside a container element: a `<template>` element
(carrying its content fragment) or an ordinary element. -/
inductive DNode where
  | tmpl (content : List Elem)
  | el (tag : String) (children : List DNode)

/-- A container element handed to `populateList`: tag name and child nodes. -/
structure HTMLElement where
  tagName : String
  children : List DNode

/-- Embeds `list.querySelector('template')`: the first `<template>` element in
document order (pre-order traversal) among the descendants, returning its
content. Content of a template is a separate fragment, so the search does not
descend into it. -/
def findTemplate : List DNode → Option (List Elem)
  | [] => none
  | DNode.tmpl c :: _ => some c
  | DNode.el _ cs :: rest =>
      match findTemplate cs with
      | some c => some c
      | none => findTemplate rest

/-- All elements of a forest in document order (pre-order), as returned by
`content.querySelectorAll('*')` / searched by `content.querySelector(sel)`. -/
def allElems : List Elem → List Elem
  | [] => []
  | .mk t cs :: rest => .mk t cs :: (allElems cs ++ allElems rest)

/-- Embeds `String.prototype.toLowerCase` for tag names. -/
def toLowerStr (s : String) : String := ⟨s.data.map Char.toLower⟩

/-- Embeds `el.matches(tag)` for a plain type selector: HTML tag names match
case-insensitively. -/
def matchesTagSel (e : Elem) (sel : String) : Bool := toLowerStr e.tag == sel

/-- A `<dt>` element. -/
def isDt (e : Elem) : Bool := matchesTagSel e "dt"

/-- A `<dd>` element. -/
def isDd (e : Elem) : Bool := matchesTagSel e "dd"

/-- Entry of a pre-order traversal that remembers the selector context of each
element: the element, its sibling list, its index among the siblings, and its
depth (`0` when the element is a direct child of the fragment). -/
abbrev PEntry := Elem × List Elem × Nat × Nat

/-- Pre-order traversal with context: `poSibs sibs i depth rest` walks `rest`,
whose elements are the siblings `sibs` starting at index `i`, at depth `depth`. -/
def poSibs (sibs : List Elem) (i depth : Nat) : List Elem → List PEntry
  | [] => []
  | .mk t cs :: rest =>
      (Elem.mk t cs, sibs, i, depth) :: (poSibs cs 0 (depth + 1) cs ++ poSibs sibs (i + 1) depth rest)

/-- Document-order traversal of a fragment's content, with selector context. -/
def preorder (content : List Elem) : List PEntry := poSibs content 0 0 content

/-- Matcher for the selector `tag:last-of-type`: the element has tag `tag` and
no later sibling has that tag. -/
def lastOfTypeSel (tag : String) (e : Elem) (sibs : List Elem) (i : Nat) : Bool :=
  matchesTagSel e tag && (sibs.drop (i + 1)).all (fun s => !(matchesTagSel s tag))

/-- Matcher for the selector `tag:first-of-type`: the element has tag `tag` and
no earlier sibling has that tag. -/
def firstOfTypeSel (tag : String) (e : Elem) (sibs : List Elem) (i : Nat) : Bool :=
  matchesTagSel e tag && (sibs.take i).all (fun s => !(matchesTagSel s tag))

/-- Embeds `[...content.children].indexOf(content.querySelector(sel))`:
`querySelector` returns the first matching element in document order; `indexOf`
compares by object reference, so it yields the element's index when the match
is a direct child (depth `0`) and `-1` otherwise (no match, or a nested match,
which is never reference-equal to a direct child). -/
def qsIndex (content : List Elem) (m : Elem → List Elem → Nat → Bool) : Int :=
  match (preorder content).find? (fun x => m x.1 x.2.1 x.2.2.1) with
  | some x => if x.2.2.2 == 0 then (x.2.2.1 : Int) else -1
  | none => -1

/-- Errors thrown by `checkDOM`. -/
inductive DOMException where
  | referenceError (msg : String)
  | typeError (msg : String)

/-- Embeds the tag lookup table of `checkDOM` (`new Map([...]).get(tag) || null`). -/
def childTagname (tag : String) : Option String :=
  List.lookup tag
    [("ol", "li"), ("ul", "li"), ("table", "tbody"), ("thead", "tr"),
     ("tbody", "tr"), ("tfoot", "tr"), ("tr", "td"), ("dl", "dt-dd")]

/-- Validation of the template content against the container's (lower-cased)
tag name: the part of `checkDOM` after the template has been located. -/
def checkTpl (tagLower : String) (content : List Elem) : Except DOMException (List Elem) :=
  match childTagname tagLower with
  | none => .error (.typeError ("<" ++ tagLower ++ "> elements are not yet supported."))
  | some ct =>
    if ct != "dt-dd" then
      -- the element is a `ol/ul/table/thead/tfoot/tbody/tr`
      if content.length != 1 then
        .error (.typeError "The <template> must contain exactly 1 element.")
      else if !(matchesTagSel (content.headD (Elem.mk "" [])) ct) then
        .error (.typeError ("The <template> must contain exactly 1 <" ++ ct ++ ">."))
      else
        .ok content
    else
      -- the element is a `dl`
      if content.length < 2 then
        .error (.typeError "The <template> must contain at least 2 elements.")
      else if ((allElems content).find? isDt).isNone || ((allElems content).find? isDd).isNone then
        .error (.typeError "The <template> must contain at least 1 <dt> and at least 1 <dd>.")
      else if (allElems content).any (fun e => !(isDt e || isDd e)) then
        .error (.typeError "The <template> must only contain <dt> or <dd> elements.")
      else if qsIndex content (lastOfTypeSel "dt") ≥ qsIndex content (firstOfTypeSel "dd") then
        .error (.typeError "All <dd> elements must follow all <dt> elements inside the <template>.")
      else
        .ok content

/-- Embeds `checkDOM(list)`: locates the first `<template>` descendant and
validates its content against the container's tag; returns the template's
content (the only part of the returned template used afterwards), or the
thrown error. -/
def checkDOM (list : HTMLElement) : Except DOMException (List Elem) :=
  match findTemplate list.children with
  | none =>
      .error (.referenceError
        ("This <" ++ toLowerStr list.tagName ++ "> does not have a <template> descendant."))
  | some content => checkTpl (toLowerStr list.tagName) content

/-- A document fragment: the list of its child elements. -/
abbrev Frag := List Elem

/-- Store of live fragments. An index into `frags` plays the role of an object
reference; `console` collects the messages logged via `console.info` /
`console.warn`; `calls` records every invocation of a fill function, as the
triple of arguments it received (fragment reference, data, options). -/
structure DOMState (V W : Type) where
  frags : List Frag
  console : List String
  calls : List (Nat × V × W)

/-- A synchronous processing function (`ProcessingFunction`): it mutates the
fragment it is given using the data and options, so it is embedded as a
function from the fragment's value to its new value. -/
def FillFn (V W : Type) : Type := Frag → V → W → Frag

/-- An asynchronous processing function (`ProcessingFunctionAsync`): besides
the mutation it performs, it reports the delay after which its promise
resolves. -/
def FillFnAsync (V W : Type) : Type := Frag → V → W → Nat × Frag

/-- A promise: the time at which it resolves together with its resolved value.
A plain (non-promise) value is a future with time `0`, which an `await` picks
up immediately. -/
structure Future (α : Type) where
  time : Nat
  val : α

/-- The value `{}` used by the defaulted `options` parameters (`options: W =
{} as W`): the designated empty object of the options type. -/
class EmptyObj (W : Type) where
  empty : W

/-- Resolution time contributed by awaiting an optional options argument
(`await options`); an omitted argument is available immediately. -/
def optTime {W : Type} : Option (Future W) → Nat
  | some f => f.time
  | none => 0

/-- Resolved value of an optional options argument, the default `{}` applying
when it was omitted. -/
def optVal {W : Type} [EmptyObj W] : Option (Future W) → W
  | some f => f.val
  | none => EmptyObj.empty

/-- Embeds `template.content.cloneNode(true)`: allocates a fresh reference
holding a deep copy of the fragment at `r`. -/
def cloneNode {V W : Type} (st : DOMState V W) (r : Nat) : DOMState V W × Nat :=
  ({ st with frags := st.frags ++ [st.frags.getD r []] }, st.frags.length)

/-- Appends a console message (`console.info` / `console.warn`). -/
def consoleLog {V W : Type} (st : DOMState V W) (msg : String) : DOMState V W :=
  { st with console := st.console ++ [msg] }

/-- Embeds `instructions(frag, data, options)`: the fill function mutates the
fragment at reference `r`, and the invocation is recorded. -/
def applyFill {V W : Type} (instr : FillFn V W) (r : Nat) (data : V) (opts : W)
    (st : DOMState V W) : DOMState V W :=
  { st with
    frags := st.frags.set r (instr (st.frags.getD r []) data opts),
    calls := st.calls ++ [(r, data, opts)] }

/-- A `Processor` instance: its template (a reference to the template's
content fragment), its processing function, and the optional asynchronous one. -/
structure Processor (V W : Type) where
  template : Nat
  instructions : FillFn V W
  instructions_async : Option (FillFnAsync V W)

/-- Embeds the static `Processor.process(frag, instructions, data, options)`:
invokes the processing function once on the given fragment and returns the very
same fragment (reference). An omitted `options` defaults to `{}`. -/
def Processor.processStatic {V W : Type} [EmptyObj W] (st : DOMState V W) (frag : Nat)
    (instr : FillFn V W) (data : V) (options : Option W) : DOMState V W × Nat :=
  (applyFill instr frag data (options.getD EmptyObj.empty) st, frag)

/-- Embeds the static `Processor.processAsync(frag, instructions, data,
options)`: awaits the data and the options, invokes the asynchronous processing
function with the resolved values, and returns a promise of the same fragment
that resolves once the processing function's promise has. -/
def Processor.processAsyncStatic {V W : Type} [EmptyObj W] (st : DOMState V W) (frag : Nat)
    (instrA : FillFnAsync V W) (start : Nat) (data : Future V) (options : Option (Future W)) :
    DOMState V W × Future Nat :=
  let tResolved := max (max start data.time) (optTime options)
  let step := instrA (st.frags.getD frag []) data.val (optVal options)
  ({ st with
     frags := st.frags.set frag step.2,
     calls := st.calls ++ [(frag, data.val, optVal options)] },
   ⟨tResolved + step.1, frag⟩)

/-- Embeds the instance method `Processor#process(data, options)`: advises when
an asynchronous processing function is available, clones the template's
content, and hands the clone to the static form. -/
def Processor.process {V W : Type} [EmptyObj W] (p : Processor V W) (st : DOMState V W)
    (data : V) (options : Option W) : DOMState V W × Nat :=
  let st0 :=
    if p.instructions_async.isSome then
      consoleLog st "An asynchronous instruction is available; did you mean to call processAsync()?"
    else st
  let c := cloneNode st0 p.template
  Processor.processStatic c.1 c.2 p.instructions data options

/-- Embeds the instance method `Processor#processAsync(data, options)`: with no
asynchronous processing function it warns and falls back to the synchronous
instance method on the awaited data and options; otherwise it clones the
template's content and delegates to the static asynchronous form. -/
def Processor.processAsync {V W : Type} [EmptyObj W] (p : Processor V W) (st : DOMState V W)
    (start : Nat) (data : Future V) (options : Option (Future W)) : DOMState V W × Future Nat :=
  match p.instructions_async with
  | none =>
      let st0 := consoleLog st "No asynchronous instructions found. Executing synchronous instructions instead…"
      let tResolved := max (max start data.time) (optTime options)
      let r := Processor.process p st0 data.val (options.map (fun f => f.val))
      (r.1, ⟨tResolved, r.2⟩)
  | some instrA =>
      let c := cloneNode st p.template
      Processor.processAsyncStatic c.1 c.2 instrA start data options

/-- Conversion of a fragment's elements into container child nodes, as
performed by `list.append(...fragments)` (appending a fragment moves its child
nodes into the container). -/
def elemsToDNodes : List Elem → List DNode
  | [] => []
  | .mk t cs :: rest => DNode.el t (elemsToDNodes cs) :: elemsToDNodes rest

/-- Embeds `dataset.map((data) => processor.process(data, options))`: the store
is threaded left to right through the per-record invocations, and the produced
fragment references are collected in dataset order. -/
def mapProcess {V W : Type} [EmptyObj W] (p : Processor V W) (options : Option W) :
    DOMState V W → List V → DOMState V W × List Nat
  | st, [] => (st, [])
  | st, d :: ds =>
      let r := Processor.process p st d options
      let rest := mapProcess p options r.1 ds
      (rest.1, r.2 :: rest.2)

/-- Embeds `dataset.map((data) => processor.processAsync(data, options))`: all
invocations are started at the common time `t0` (they run concurrently), and
their promises are collected in dataset order. The store can be threaded
sequentially because every invocation clones the (untouched) template and then
mutates only its own fresh fragment, so the final store is the same under any
interleaving. -/
def mapProcessAsync {V W : Type} [EmptyObj W] (p : Processor V W) (t0 : Nat)
    (options : Option (Future W)) : DOMState V W → List V → DOMState V W × List (Future Nat)
  | st, [] => (st, [])
  | st, d :: ds =>
      let r := Processor.processAsync p st t0 ⟨0, d⟩ options
      let rest := mapProcessAsync p t0 options r.1 ds
      (rest.1, r.2 :: rest.2)

/-- Child nodes contributed by `list.append(...fragments)` for the fragments
designated by `refs`, in order. -/
def appendFrags {V W : Type} (st : DOMState V W) (refs : List Nat) : List DNode :=
  (refs.map (fun r => elemsToDNodes (st.frags.getD r []))).flatten

/-- The store in which nothing has happened: returned alongside a thrown
validation error, witnessing that no fill function ran and no fragment was
produced. -/
def emptyDOMState {V W : Type} : DOMState V W := ⟨[], [], []⟩

/-- Embeds the static `Processor.populateList(list, instructions, dataset,
options)`: validates the container's template, builds one `Processor` bound to
it (with no asynchronous processing function), processes every record, and
appends all produced fragments to the container in one batch. The result is
the outcome (the thrown error, if any), the container afterwards, and the
final store. -/
def Processor.populateList {V W : Type} [EmptyObj W] (list : HTMLElement) (instr : FillFn V W)
    (dataset : List V) (options : Option W) :
    Except DOMException Unit × HTMLElement × DOMState V W :=
  match checkDOM list with
  | .error e => (.error e, list, emptyDOMState)
  | .ok content =>
      let p : Processor V W := ⟨0, instr, none⟩
      let st0 : DOMState V W := ⟨[content], [], []⟩
      let res := mapProcess p options st0 dataset
      (.ok (), { list with children := list.children ++ appendFrags res.1 res.2 }, res.1)

/-- Embeds the static `Processor.populateListAsync(list, instructions, dataset,
options)`: validates the container's template, builds one `Processor` whose
synchronous processing function is the no-op `() => {}` and whose asynchronous
one is `instructions`, awaits the dataset, starts every record's asynchronous
processing at that common time, awaits them all (`Promise.all`), and appends
all produced fragments in one batch, in dataset order. The last component is
the time at which the append happens (when `Promise.all` has resolved). -/
def Processor.populateListAsync {V W : Type} [EmptyObj W] (list : HTMLElement)
    (instrA : FillFnAsync V W) (start : Nat) (dataset : Future (List V))
    (options : Option (Future W)) :
    Except DOMException Unit × HTMLElement × DOMState V W × Nat :=
  match checkDOM list with
  | .error e => (.error e, list, emptyDOMState, start)
  | .ok content =>
      let p : Processor V W := ⟨0, fun f _ _ => f, some instrA⟩
      let st0 : DOMState V W := ⟨[content], [], []⟩
      let t0 := max start dataset.time
      let res := mapProcessAsync p t0 options st0 dataset.val
      let tAll := res.2.foldl (fun acc f => max acc f.time) t0
      (.ok (),
       { list with children := list.children ++ appendFrags res.1 (res.2.map (fun f => f.val)) },
       res.1, tAll)

/-- The fill invocations performed by a list population: one per record, in
dataset order, on consecutively allocated fragment references starting at `r`. -/
def callsFor {V W : Type} (r : Nat) (opts : W) : List V → List (Nat × V × W)
  | [] => []
  | d :: ds => (r, d, opts) :: callsFor (r + 1) opts ds

/-- The promises produced by an asynchronous list population: record `k` is
processed on fragment reference `r + k` and resolves at the common start time
`tS` plus its own processing delay. -/
def futsFor {V W : Type} (instrA : FillFnAsync V W) (tpl : Frag) (opts : W) (tS r : Nat) :
    List V → List (Future Nat)
  | [] => []
  | d :: ds => ⟨tS + (instrA tpl d opts).1, r⟩ :: futsFor instrA tpl opts tS (r + 1) ds

/-- Modelled from the claim's words, for comparison with `checkTpl`: a `dl`
template content is deemed valid when it has at least one `dt` element and at
least one `dd` element, no other element types, and, in document order, no `dt`
occurs at or after the first `dd` (all `dt` precede all `dd`). -/
def dlSpecAccepts (content : List Elem) : Bool :=
  (allElems content).any isDt && (allElems content).any isDd &&
  (allElems content).all (fun e => isDt e || isDd e) &&
  ((allElems content).dropWhile (fun e => !isDd e)).all (fun e => !isDt e)

/-- A flat fragment: every child element is childless (the ordinary shape of a
`dl` template's content). -/
def isFlat (content : List Elem) : Bool := content.all (fun e => e.children.isEmpty)

/-- Pre-order entries of a flat forest: every element sits at depth `0` in the
sibling list `sibs`, at consecutive indices from `i`. -/
def flatEntries (sibs : List Elem) (i : Nat) : List Elem → List PEntry
  | [] => []
  | e :: rest => (e, sibs, i, 0) :: flatEntries sibs (i + 1) rest

/-- A JavaScript-style options object, for concrete instantiations. -/
abbrev JSObj := List (String × String)

instance : EmptyObj JSObj := ⟨[]⟩

instance : EmptyObj Unit := ⟨()⟩

/-- Reading below the appended part of a list. -/
lemma getD_append_lt {α : Type} (l₁ l₂ : List α) (i : Nat) (d : α) (h : i < l₁.length) :
    (l₁ ++ l₂).getD i d = l₁.getD i d := by
  induction l₁ generalizing i with
  | nil => simp at h
  | cons x xs ih =>
      cases i with
      | zero => rfl
      | succ j => simpa using ih j (by simpa using h)

/-- Reading exactly at the seam of an append. -/
lemma getD_append_len {α : Type} (l₁ l₂ : List α) (a d : α) :
    (l₁ ++ a :: l₂).getD l₁.length d = a := by
  induction l₁ with
  | nil => rfl
  | cons x xs ih => simpa using ih

/-- Writing exactly at the seam of an append. -/
lemma set_append_len {α : Type} (l₁ l₂ : List α) (a v : α) :
    (l₁ ++ a :: l₂).set l₁.length v = l₁ ++ v :: l₂ := by
  induction l₁ with
  | nil => rfl
  | cons x xs ih => simp [List.set, ih]

/-- Awaiting an optional options argument yields its `optVal`. -/
lemma optVal_eq {W : Type} [EmptyObj W] (o : Option (Future W)) :
    (o.map (fun f => f.val)).getD EmptyObj.empty = optVal o := by
  cases o <;> rfl

/-- Unfolding of the instance method `process`: it clones the template content
into a fresh reference (the next free index), runs the processing function once
on the clone with the given data and defaulted options, advises on the console
when an asynchronous processing function is available, and returns the clone's
reference. -/
lemma process_eq {V W : Type} [EmptyObj W] (p : Processor V W) (st : DOMState V W)
    (d : V) (o : Option W) :
    Processor.process p st d o =
      ({ frags := st.frags ++
           [p.instructions (st.frags.getD p.template []) d (o.getD EmptyObj.empty)],
         console := st.console ++
           (if p.instructions_async.isSome then
             ["An asynchronous instruction is available; did you mean to call processAsync()?"]
            else []),
         calls := st.calls ++ [(st.frags.length, d, o.getD EmptyObj.empty)] },
       st.frags.length) := by
  unfold Processor.process cloneNode Processor.processStatic applyFill consoleLog
  cases h : p.instructions_async <;>
    simp [h, getD_append_len st.frags [], set_append_len st.frags []]

/-- Unfolding of the instance method `processAsync` when no asynchronous
processing function is present: it warns, awaits the data and options, and
falls back to the synchronous instance method, the promise resolving as soon
as the awaited arguments have. -/
lemma processAsync_none_eq {V W : Type} [EmptyObj W] (p : Processor V W) (st : DOMState V W)
    (s : Nat) (data : Future V) (o : Option (Future W)) (h : p.instructions_async = none) :
    Processor.processAsync p st s data o =
      ({ frags := st.frags ++
           [p.instructions (st.frags.getD p.template []) data.val (optVal o)],
         console := st.console ++
           ["No asynchronous instructions found. Executing synchronous instructions instead…"],
         calls := st.calls ++ [(st.frags.length, data.val, optVal o)] },
       ⟨max (max s data.time) (optTime o), st.frags.length⟩) := by
  unfold Processor.processAsync
  rw [h]
  simp [process_eq, consoleLog, h, optVal_eq]

/-- Unfolding of the instance method `processAsync` when an asynchronous
processing function is present: it clones the template content into a fresh
reference and runs the asynchronous processing function on the clone with the
awaited data and options, the promise resolving after the function's own delay. -/
lemma processAsync_some_eq {V W : Type} [EmptyObj W] (p : Processor V W) (st : DOMState V W)
    (s : Nat) (data : Future V) (o : Option (Future W)) (instrA : FillFnAsync V W)
    (h : p.instructions_async = some instrA) :
    Processor.processAsync p st s data o =
      ({ frags := st.frags ++
           [(instrA (st.frags.getD p.template []) data.val (optVal o)).2],
         console := st.console,
         calls := st.calls ++ [(st.frags.length, data.val, optVal o)] },
       ⟨max (max s data.time) (optTime o) +
          (instrA (st.frags.getD p.template []) data.val (optVal o)).1,
        st.frags.length⟩) := by
  unfold Processor.processAsync cloneNode Processor.processAsyncStatic
  rw [h]
  simp [getD_append_len st.frags [], set_append_len st.frags []]

/-- One fill invocation per record: `callsFor` has the dataset's length. -/
lemma callsFor_length {V W : Type} (r : Nat) (o : W) (ds : List V) :
    (callsFor r o ds).length = ds.length := by
  induction ds generalizing r with
  | nil => rfl
  | cons d ds ih => simp [callsFor, ih]

/-- Mapping the synchronous per-record processing over a dataset: every record
clones the (unchanged) template content, fills the clone, and the consecutive
fresh references are returned in dataset order. -/
lemma mapProcess_spec {V W : Type} [EmptyObj W] (p : Processor V W) (o : Option W)
    (hA : p.instructions_async = none) (ds : List V) :
    ∀ (st : DOMState V W), p.template < st.frags.length →
    mapProcess p o st ds =
      ({ frags := st.frags ++
           ds.map (fun d => p.instructions (st.frags.getD p.template []) d (o.getD EmptyObj.empty)),
         console := st.console,
         calls := st.calls ++ callsFor st.frags.length (o.getD EmptyObj.empty) ds },
       List.range' st.frags.length ds.length) := by
  induction ds with
  | nil => intro st h; simp [mapProcess, callsFor, List.range']
  | cons d ds ih =>
      intro st h
      simp only [mapProcess]
      rw [process_eq]
      have hlen : ∀ f : Frag, p.template < (st.frags ++ [f]).length := by
        intro f; simp; omega
      rw [ih _ (hlen _)]
      simp [hA, getD_append_lt _ _ _ _ h, callsFor, List.range']
      intro a _
      rw [List.getElem?_append, if_pos h]

/-- Mapping the asynchronous per-record processing over a dataset: every record
clones the (unchanged) template content and starts its asynchronous fill at the
common time `t0`; the promises, in dataset order, carry consecutive fresh
references and resolve at the shared start time plus their own delay. -/
lemma mapProcessAsync_spec {V W : Type} [EmptyObj W] (p : Processor V W) (t0 : Nat)
    (o : Option (Future W)) (instrA : FillFnAsync V W)
    (hA : p.instructions_async = some instrA) (ds : List V) :
    ∀ (st : DOMState V W), p.template < st.frags.length →
    mapProcessAsync p t0 o st ds =
      ({ frags := st.frags ++
           ds.map (fun d => (instrA (st.frags.getD p.template []) d (optVal o)).2),
         console := st.console,
         calls := st.calls ++ callsFor st.frags.length (optVal o) ds },
       futsFor instrA (st.frags.getD p.template []) (optVal o) (max t0 (optTime o))
         st.frags.length ds) := by
  induction ds with
  | nil => intro st h; simp [mapProcessAsync, callsFor, futsFor]
  | cons d ds ih =>
      intro st h
      simp only [mapProcessAsync]
      rw [processAsync_some_eq p st t0 ⟨0, d⟩ o instrA hA]
      have hlen : ∀ f : Frag, p.template < (st.frags ++ [f]).length := by
        intro f; simp; omega
      rw [ih _ (hlen _)]
      simp [getD_append_lt _ _ _ _ h, callsFor, futsFor]
      constructor
      · intro a _
        rw [List.getElem?_append, if_pos h]
      · rw [List.getElem?_append, if_pos h]

/-- The fragment references carried by the promises of an asynchronous batch. -/
lemma futsFor_map_val {V W : Type} (instrA : FillFnAsync V W) (T : Frag) (o : W) (tS : Nat)
    (ds : List V) : ∀ r : Nat,
    (futsFor instrA T o tS r ds).map (fun f => f.val) = List.range' r ds.length := by
  induction ds with
  | nil => intro r; rfl
  | cons d ds ih => intro r; simp [futsFor, List.range', ih]

/-- Folding the resolution times of an asynchronous batch. -/
lemma futsFor_foldl_time {V W : Type} (instrA : FillFnAsync V W) (T : Frag) (o : W) (tS : Nat)
    (ds : List V) : ∀ (r acc : Nat),
    (futsFor instrA T o tS r ds).foldl (fun a f => max a f.time) acc =
      (ds.map (fun d => tS + (instrA T d o).1)).foldl max acc := by
  induction ds with
  | nil => intro r acc; rfl
  | cons d ds ih => intro r acc; simp [futsFor, ih]

/-- A maximum fold dominates its starting value. -/
lemma le_foldl_max (l : List Nat) : ∀ acc : Nat, acc ≤ l.foldl max acc := by
  induction l with
  | nil => intro acc; exact Nat.le_refl acc
  | cons x xs ih =>
      intro acc
      exact Nat.le_trans (Nat.le_max_left acc x) (ih (max acc x))

/-- A maximum fold dominates every member. -/
lemma mem_le_foldl_max (l : List Nat) : ∀ (acc x : Nat), x ∈ l → x ≤ l.foldl max acc := by
  induction l with
  | nil => intro acc x hx; cases hx
  | cons y ys ih =>
      intro acc x hx
      cases hx with
      | head => exact Nat.le_trans (Nat.le_max_right acc y) (le_foldl_max ys (max acc y))
      | tail _ h => exact ih (max acc y) x h

/-- Appending the fragments allocated at consecutive references past `pre`
contributes exactly their contents, in order. -/
lemma appendFrags_seam {V W : Type} (con : List String) (cl : List (Nat × V × W))
    (frs : List Frag) : ∀ pre : List Frag,
    appendFrags (⟨pre ++ frs, con, cl⟩ : DOMState V W) (List.range' pre.length frs.length) =
      (frs.map elemsToDNodes).flatten := by
  induction frs with
  | nil => intro pre; rfl
  | cons f frs ih =>
      intro pre
      have h1 : (pre ++ f :: frs).getD pre.length [] = f := getD_append_len pre frs f []
      have h2 : pre ++ f :: frs = (pre ++ [f]) ++ frs := by simp
      simp only [List.range', appendFrags, List.map_cons, List.flatten_cons, h1]
      have h3 := ih (pre ++ [f])
      simp only [appendFrags, List.length_append, List.length_cons, List.length_nil] at h3
      rw [h2]
      simpa using congrArg (fun l => elemsToDNodes f ++ l) h3

/-- Fragment-to-container conversion preserves the number of child nodes. -/
lemma elemsToDNodes_length (l : List Elem) : (elemsToDNodes l).length = l.length := by
  induction l with
  | nil => simp [elemsToDNodes]
  | cons e rest ih => cases e; simp [elemsToDNodes, ih]

/-- Flattening lists that all have exactly one entry yields one entry apiece. -/
lemma flatten_length_ones {α : Type} (L : List (List α)) :
    (∀ x ∈ L, x.length = 1) → L.flatten.length = L.length := by
  induction L with
  | nil => intro _; rfl
  | cons x xs ih =>
      intro h
      simp [List.flatten_cons, h x (List.mem_cons_self x xs), ih (fun y hy => h y (List.mem_cons_of_mem x hy))]
      omega

/-- Template search distributes over an append of node lists. -/
lemma findTemplate_append (l₁ l₂ : List DNode) :
    findTemplate (l₁ ++ l₂) = (findTemplate l₁).or (findTemplate l₂) := by
  induction l₁ with
  | nil => simp [findTemplate]
  | cons n rest ih =>
      cases n with
      | tmpl c => simp [findTemplate]
      | el t cs =>
          cases h : findTemplate cs with
          | some c => simp [findTemplate, h]
          | none => simp [findTemplate, h, ih]

/-- The first `<template>` in document order is found, whatever follows it. -/
lemma findTemplate_first (pre : List DNode) (c : List Elem) (post : List DNode)
    (h : findTemplate pre = none) :
    findTemplate (pre ++ DNode.tmpl c :: post) = some c := by
  rw [findTemplate_append, h]
  simp [findTemplate]

/-- Claim C4: the static `Processor.process(frag, fillFn, data, options)`
synchronously invokes the fill function exactly once, with exactly the
arguments `(frag, data, options)`, mutates the fragment accordingly, and
returns the very same fragment (the same reference, now mutated); when the
`options` argument is omitted, the fill function receives the empty object as
its third argument. -/
theorem claim_C4 {V W : Type} [EmptyObj W] (st : DOMState V W) (frag : Nat)
    (instr : FillFn V W) (data : V) (options : W) :
    (Processor.processStatic st frag instr data (some options)).2 = frag ∧
    (Processor.processStatic st frag instr data (some options)).1.calls =
      st.calls ++ [(frag, data, options)] ∧
    (Processor.processStatic st frag instr data (some options)).1.frags =
      st.frags.set frag (instr (st.frags.getD frag []) data options) ∧
    (Processor.processStatic st frag instr data none).2 = frag ∧
    (Processor.processStatic st frag instr data none).1.calls =
      st.calls ++ [(frag, data, EmptyObj.empty)] :=
  ⟨rfl, rfl, rfl, rfl, rfl⟩

/-- Claim C5: on a `Processor` whose `instructions_async` is `null`, the
instance method `processAsync` raises no error: it logs the advisory warning,
awaits the data and the options (its promise resolving exactly when they
have), runs the synchronous fill function once on a freshly cloned fragment,
and returns that (resolved) fragment. -/
theorem claim_C5 {V W : Type} [EmptyObj W] (p : Processor V W) (st : DOMState V W)
    (start : Nat) (data : Future V) (options : Option (Future W))
    (hA : p.instructions_async = none) :
    (Processor.processAsync p st start data options).1.console =
      st.console ++
        ["No asynchronous instructions found. Executing synchronous instructions instead…"] ∧
    (Processor.processAsync p st start data options).2.time =
      max (max start data.time) (optTime options) ∧
    (Processor.processAsync p st start data options).2.val = st.frags.length ∧
    (Processor.processAsync p st start data options).1.frags =
      st.frags ++ [p.instructions (st.frags.getD p.template []) data.val (optVal options)] ∧
    (Processor.processAsync p st start data options).1.calls =
      st.calls ++ [(st.frags.length, data.val, optVal options)] := by
  rw [processAsync_none_eq p st start data options hA]
  exact ⟨rfl, rfl, rfl, rfl, rfl⟩

/-- Witness for claim C5, at a concrete synchronous-only processor. -/
theorem claim_C5_witness :
    ((⟨0, fun f _ _ => f, none⟩ : Processor Nat Unit).instructions_async = none) ∧
    (Processor.processAsync (⟨0, fun f _ _ => f, none⟩ : Processor Nat Unit)
        ⟨[[]], [], []⟩ 1 ⟨7, 5⟩ none).2.time = 7 := by
  refine ⟨rfl, ?_⟩
  have h := claim_C5 (⟨0, fun f _ _ => f, none⟩ : Processor Nat Unit) ⟨[[]], [], []⟩ 1 ⟨7, 5⟩ none rfl
  rw [h.2.1]
  decide

/-- Claim C7: for both the static and the instance `processAsync`, when the
data argument is a future, the returned future resolves no earlier than the
data future, the fill function is invoked with the resolved data (and resolved
options) values, and the result reflects the resolved values (the fragment is
the one mutated by the fill function applied to them). -/
theorem claim_C7 {V W : Type} [EmptyObj W] (st : DOMState V W) (frag : Nat)
    (instrA : FillFnAsync V W) (p : Processor V W) (start : Nat) (data : Future V)
    (options : Option (Future W)) :
    data.time ≤ (Processor.processAsyncStatic st frag instrA start data options).2.time ∧
    (Processor.processAsyncStatic st frag instrA start data options).1.calls =
      st.calls ++ [(frag, data.val, optVal options)] ∧
    (Processor.processAsyncStatic st frag instrA start data options).2.val = frag ∧
    (Processor.processAsyncStatic st frag instrA start data options).1.frags =
      st.frags.set frag ((instrA (st.frags.getD frag []) data.val (optVal options)).2) ∧
    data.time ≤ (Processor.processAsync p st start data options).2.time ∧
    (Processor.processAsync p st start data options).1.calls =
      st.calls ++ [(st.frags.length, data.val, optVal options)] := by
  have hd : data.time ≤ max (max start data.time) (optTime options) :=
    Nat.le_trans (Nat.le_max_right start data.time) (Nat.le_max_left _ _)
  refine ⟨Nat.le_trans hd (Nat.le_add_right _ _), rfl, rfl, rfl, ?_, ?_⟩
  · cases hA : p.instructions_async with
    | none => rw [processAsync_none_eq p st start data options hA]; exact hd
    | some iA =>
        rw [processAsync_some_eq p st start data options iA hA]
        exact Nat.le_trans hd (Nat.le_add_right _ _)
  · cases hA : p.instructions_async with
    | none => rw [processAsync_none_eq p st start data options hA]
    | some iA => rw [processAsync_some_eq p st start data options iA hA]

/-- Claim C8: the instance methods `process` and `processAsync` never modify
the原 template content: each call fills a fresh clone allocated at a new
reference, the returned fragment is distinct from the template content, and
fragments returned by distinct calls are distinct from each other, a later
call never disturbing an earlier call's fragment. -/
theorem claim_C8 {V W : Type} [EmptyObj W] (p : Processor V W) (st : DOMState V W)
    (d₁ d₂ : V) (o₁ o₂ : Option W) (start : Nat) (data : Future V) (fo : Option (Future W))
    (hT : p.template < st.frags.length) :
    (Processor.process p st d₁ o₁).1.frags.getD p.template [] = st.frags.getD p.template [] ∧
    (Processor.process p st d₁ o₁).2 ≠ p.template ∧
    (Processor.process p st d₁ o₁).2 = st.frags.length ∧
    (Processor.process p st d₁ o₁).1.frags.getD (Processor.process p st d₁ o₁).2 [] =
      p.instructions (st.frags.getD p.template []) d₁ (o₁.getD EmptyObj.empty) ∧
    (Processor.process p (Processor.process p st d₁ o₁).1 d₂ o₂).2 ≠
      (Processor.process p st d₁ o₁).2 ∧
    (Processor.process p (Processor.process p st d₁ o₁).1 d₂ o₂).1.frags.getD
        (Processor.process p st d₁ o₁).2 [] =
      (Processor.process p st d₁ o₁).1.frags.getD (Processor.process p st d₁ o₁).2 [] ∧
    (Processor.process p (Processor.process p st d₁ o₁).1 d₂ o₂).1.frags.getD p.template [] =
      st.frags.getD p.template [] ∧
    (Processor.processAsync p st start data fo).1.frags.getD p.template [] =
      st.frags.getD p.template [] ∧
    (Processor.processAsync p st start data fo).2.val = st.frags.length ∧
    (Processor.processAsync p st start data fo).2.val ≠ p.template := by
  rw [process_eq]
  have hT1 : p.template < (st.frags ++
      [p.instructions (st.frags.getD p.template []) d₁ (o₁.getD EmptyObj.empty)]).length := by
    simp; omega
  refine ⟨?_, ?_, rfl, ?_, ?_, ?_, ?_, ?_, ?_, ?_⟩
  · exact getD_append_lt _ _ _ _ hT
  · omega
  · simp only []
    exact getD_append_len st.frags [] _ []
  · rw [process_eq]
    simp
  · rw [process_eq]
    simp only []
    rw [getD_append_lt _ _ _ _ (by simp)]
  · rw [process_eq]
    simp only []
    rw [getD_append_lt _ _ _ _ hT1, getD_append_lt _ _ _ _ hT]
  · cases hA : p.instructions_async with
    | none =>
        rw [processAsync_none_eq p st start data fo hA]
        exact getD_append_lt _ _ _ _ hT
    | some iA =>
        rw [processAsync_some_eq p st start data fo iA hA]
        exact getD_append_lt _ _ _ _ hT
  · cases hA : p.instructions_async with
    | none => rw [processAsync_none_eq p st start data fo hA]
    | some iA => rw [processAsync_some_eq p st start data fo iA hA]
  · cases hA : p.instructions_async with
    | none => rw [processAsync_none_eq p st start data fo hA]; exact Nat.ne_of_gt hT
    | some iA => rw [processAsync_some_eq p st start data fo iA hA]; exact Nat.ne_of_gt hT

/-- Witness for claim C8, at a concrete processor over a one-fragment store. -/
theorem claim_C8_witness :
    (0 < ([[Elem.mk "li" []]] : List Frag).length) ∧
    (Processor.process (⟨0, fun f _ _ => f, none⟩ : Processor Nat Unit)
        ⟨[[Elem.mk "li" []]], [], []⟩ 4 none).1.frags.getD 0 [] = [Elem.mk "li" []] := by
  refine ⟨by decide, ?_⟩
  have h := claim_C8 (⟨0, fun f _ _ => f, none⟩ : Processor Nat Unit)
    ⟨[[Elem.mk "li" []]], [], []⟩ 4 5 none none 0 ⟨0, 6⟩ none (by decide)
  simpa using h.1

/-- Claim C6: on a container whose template validates with content `content`,
`populateList` with a dataset of length `N` succeeds and appends exactly the
`N` filled fragments, one per record and in dataset order, after the
container's pre-existing children, which are left untouched; the fill function
runs exactly once per record, and when every produced fragment has a single
child element the container gains exactly `N` child elements. -/
theorem claim_C6 {V W : Type} [EmptyObj W] (list : HTMLElement) (instr : FillFn V W)
    (dataset : List V) (options : Option W) (content : List Elem)
    (hOK : checkDOM list = .ok content) :
    (Processor.populateList list instr dataset options).1 = .ok () ∧
    (Processor.populateList list instr dataset options).2.1.tagName = list.tagName ∧
    (Processor.populateList list instr dataset options).2.1.children =
      list.children ++
        ((dataset.map (fun d => instr content d (options.getD EmptyObj.empty))).map
          elemsToDNodes).flatten ∧
    (Processor.populateList list instr dataset options).2.2.calls =
      callsFor 1 (options.getD EmptyObj.empty) dataset ∧
    (Processor.populateList list instr dataset options).2.2.calls.length = dataset.length ∧
    ((∀ d : V, (instr content d (options.getD EmptyObj.empty)).length = 1) →
      (Processor.populateList list instr dataset options).2.1.children.length =
        list.children.length + dataset.length) := by
  unfold Processor.populateList
  simp only [hOK]
  rw [mapProcess_spec _ _ rfl dataset ⟨[content], [], []⟩ (by simp)]
  have hget : ([content] : List Frag).getD 0 [] = content := rfl
  have hlen1 : ([content] : List Frag).length = 1 := rfl
  have hseam := appendFrags_seam ([] : List String)
    (callsFor 1 (options.getD EmptyObj.empty) dataset)
    (dataset.map (fun d => instr content d (options.getD EmptyObj.empty))) [content]
  rw [hlen1, List.length_map] at hseam
  simp only [hget, hlen1, List.nil_append, hseam]
  refine ⟨trivial, trivial, trivial, trivial, callsFor_length _ _ _, ?_⟩
  intro hone
  rw [List.length_append]
  congr 1
  rw [flatten_length_ones]
  · simp
  · intro x hx
    obtain ⟨f, hf, rfl⟩ := List.mem_map.mp hx
    obtain ⟨d, _, rfl⟩ := List.mem_map.mp hf
    rw [elemsToDNodes_length]
    exact hone d

/-- Witness for claim C6, at a concrete ordered list with two records. -/
theorem claim_C6_witness :
    (checkDOM ⟨"ol", [DNode.tmpl [Elem.mk "li" []]]⟩ = .ok [Elem.mk "li" []]) ∧
    (Processor.populateList (V := Nat) (W := Unit) ⟨"ol", [DNode.tmpl [Elem.mk "li" []]]⟩
        (fun f _ _ => f) [4, 5] none).2.2.calls.length = 2 := by
  have hOK : checkDOM ⟨"ol", [DNode.tmpl [Elem.mk "li" []]]⟩ = .ok [Elem.mk "li" []] := by
    simp [checkDOM, findTemplate, checkTpl, childTagname, List.lookup, matchesTagSel,
      toLowerStr, Elem.tag]
  refine ⟨hOK, ?_⟩
  have h := claim_C6 (V := Nat) (W := Unit) ⟨"ol", [DNode.tmpl [Elem.mk "li" []]]⟩
    (fun f _ _ => f) [4, 5] none [Elem.mk "li" []] hOK
  rw [h.2.2.2.2.1]
  rfl

/-- Claim C3: for `populateList` and `populateListAsync`, a container without a
`<template>` descendant yields the reference-missing error; a container whose
tag is unsupported, or whose template content violates the tag's shape rule,
yields a structural-mismatch error; and in every failure case the error arises
before any fill function has been invoked (the returned store records no
invocation and holds no fragment) and the container's children are unchanged. -/
theorem claim_C3 {V W : Type} [EmptyObj W] (list : HTMLElement) (instr : FillFn V W)
    (dataset : List V) (options : Option W) (instrA : FillFnAsync V W) (start : Nat)
    (datasetF : Future (List V)) (optionsF : Option (Future W)) :
    (findTemplate list.children = none →
      Processor.populateList list instr dataset options =
        (.error (.referenceError
          ("This <" ++ toLowerStr list.tagName ++ "> does not have a <template> descendant.")),
         list, emptyDOMState) ∧
      Processor.populateListAsync list instrA start datasetF optionsF =
        (.error (.referenceError
          ("This <" ++ toLowerStr list.tagName ++ "> does not have a <template> descendant.")),
         list, emptyDOMState, start)) ∧
    (∀ content : List Elem, findTemplate list.children = some content →
      childTagname (toLowerStr list.tagName) = none →
      Processor.populateList list instr dataset options =
        (.error (.typeError ("<" ++ toLowerStr list.tagName ++ "> elements are not yet supported.")),
         list, emptyDOMState) ∧
      Processor.populateListAsync list instrA start datasetF optionsF =
        (.error (.typeError ("<" ++ toLowerStr list.tagName ++ "> elements are not yet supported.")),
         list, emptyDOMState, start)) ∧
    (∀ e : DOMException, checkDOM list = .error e →
      Processor.populateList list instr dataset options = (.error e, list, emptyDOMState) ∧
      Processor.populateListAsync list instrA start datasetF optionsF =
        (.error e, list, emptyDOMState, start)) := by
  have herr : ∀ e : DOMException, checkDOM list = .error e →
      Processor.populateList list instr dataset options = (.error e, list, emptyDOMState) ∧
      Processor.populateListAsync list instrA start datasetF optionsF =
        (.error e, list, emptyDOMState, start) := by
    intro e he
    unfold Processor.populateList Processor.populateListAsync
    rw [he]
    exact ⟨rfl, rfl⟩
  refine ⟨?_, ?_, herr⟩
  · intro hnone
    refine herr _ ?_
    unfold checkDOM
    rw [hnone]
  · intro content hsome hct
    refine herr _ ?_
    unfold checkDOM
    rw [hsome]
    unfold checkTpl
    rw [hct]

/-- Witness for claim C3, at a container with no `<template>` descendant. -/
theorem claim_C3_witness :
    (findTemplate (HTMLElement.mk "ol" []).children = none) ∧
    (Processor.populateList (V := Nat) (W := Unit) ⟨"ol", []⟩ (fun f _ _ => f) [1] none =
      (.error (.referenceError "This <ol> does not have a <template> descendant."),
       (⟨"ol", []⟩ : HTMLElement), emptyDOMState)) := by
  have hnone : findTemplate (HTMLElement.mk "ol" []).children = none := by
    simp [findTemplate]
  refine ⟨hnone, ?_⟩
  have h := claim_C3 (V := Nat) (W := Unit) ⟨"ol", []⟩ (fun f _ _ => f) [1] none
    (fun f _ _ => (0, f)) 0 ⟨0, []⟩ none
  exact (h.1 hnone).1

/-- Claim C10: with several `<template>` descendants, only the first in
document order matters: two containers agreeing before and at their first
template but differing arbitrarily afterwards (in particular, in the structure
and content of every later template) validate identically, and `populateList`
and `populateListAsync` produce the same outcome, the same store (hence the
same fragments and fill invocations), the same appended suffix of children,
and the same append time. -/
theorem claim_C10 {V W : Type} [EmptyObj W] (tag : String) (pre : List DNode) (c : List Elem)
    (post post' : List DNode) (instr : FillFn V W) (dataset : List V) (options : Option W)
    (instrA : FillFnAsync V W) (start : Nat) (datasetF : Future (List V))
    (optionsF : Option (Future W)) (hPre : findTemplate pre = none) :
    checkDOM ⟨tag, pre ++ DNode.tmpl c :: post⟩ = checkDOM ⟨tag, pre ++ DNode.tmpl c :: post'⟩ ∧
    checkDOM ⟨tag, pre ++ DNode.tmpl c :: post⟩ = checkTpl (toLowerStr tag) c ∧
    (Processor.populateList ⟨tag, pre ++ DNode.tmpl c :: post⟩ instr dataset options).1 =
      (Processor.populateList ⟨tag, pre ++ DNode.tmpl c :: post'⟩ instr dataset options).1 ∧
    (Processor.populateList ⟨tag, pre ++ DNode.tmpl c :: post⟩ instr dataset options).2.2 =
      (Processor.populateList ⟨tag, pre ++ DNode.tmpl c :: post'⟩ instr dataset options).2.2 ∧
    (Processor.populateList ⟨tag, pre ++ DNode.tmpl c :: post⟩ instr dataset options).2.1.children.drop
        (pre ++ DNode.tmpl c :: post).length =
      (Processor.populateList ⟨tag, pre ++ DNode.tmpl c :: post'⟩ instr dataset options).2.1.children.drop
        (pre ++ DNode.tmpl c :: post').length ∧
    (Processor.populateListAsync ⟨tag, pre ++ DNode.tmpl c :: post⟩ instrA start datasetF optionsF).1 =
      (Processor.populateListAsync ⟨tag, pre ++ DNode.tmpl c :: post'⟩ instrA start datasetF optionsF).1 ∧
    (Processor.populateListAsync ⟨tag, pre ++ DNode.tmpl c :: post⟩ instrA start datasetF optionsF).2.2 =
      (Processor.populateListAsync ⟨tag, pre ++ DNode.tmpl c :: post'⟩ instrA start datasetF optionsF).2.2 ∧
    (Processor.populateListAsync ⟨tag, pre ++ DNode.tmpl c :: post⟩ instrA start datasetF optionsF).2.1.children.drop
        (pre ++ DNode.tmpl c :: post).length =
      (Processor.populateListAsync ⟨tag, pre ++ DNode.tmpl c :: post'⟩ instrA start datasetF optionsF).2.1.children.drop
        (pre ++ DNode.tmpl c :: post').length := by
  have hCD : ∀ q : List DNode, checkDOM ⟨tag, pre ++ DNode.tmpl c :: q⟩ =
      checkTpl (toLowerStr tag) c := by
    intro q
    unfold checkDOM
    rw [show (HTMLElement.mk tag (pre ++ DNode.tmpl c :: q)).children =
        pre ++ DNode.tmpl c :: q from rfl]
    rw [findTemplate_first pre c q hPre]
  refine ⟨(hCD post).trans (hCD post').symm, hCD post, ?_⟩
  unfold Processor.populateList Processor.populateListAsync
  rw [hCD post, hCD post']
  cases htc : checkTpl (toLowerStr tag) c with
  | error e =>
      simp only []
      exact ⟨trivial, trivial, by rw [List.drop_length, List.drop_length], trivial, trivial,
        by rw [List.drop_length, List.drop_length]⟩
  | ok cc =>
      simp only []
      exact ⟨trivial, trivial, by rw [List.drop_left, List.drop_left], trivial, trivial,
        by rw [List.drop_left, List.drop_left]⟩

/-- Witness for claim C10, at a container with two templates. -/
theorem claim_C10_witness :
    (findTemplate ([] : List DNode) = none) ∧
    checkDOM ⟨"ol", DNode.tmpl [Elem.mk "li" []] :: [DNode.tmpl []]⟩ =
      checkDOM ⟨"ol", DNode.tmpl [Elem.mk "li" []] :: [DNode.tmpl [Elem.mk "td" []]]⟩ := by
  have h0 : findTemplate ([] : List DNode) = none := by simp [findTemplate]
  refine ⟨h0, ?_⟩
  have h := claim_C10 (V := Nat) (W := Unit) "ol" [] [Elem.mk "li" []]
    [DNode.tmpl []] [DNode.tmpl [Elem.mk "td" []]] (fun f _ _ => f) [1] none
    (fun f _ _ => (0, f)) 0 ⟨0, []⟩ none h0
  simpa using h.1

/-- Claim C9: `populateListAsync` first awaits the dataset (and options); the
per-record asynchronous fill operations all start at the same resolved time —
concurrently, each completing at that shared start plus its own delay, not
sequentially — nothing is appended before every operation has completed, and
the appended fragments preserve dataset order. -/
theorem claim_C9 {V W : Type} [EmptyObj W] (list : HTMLElement) (instrA : FillFnAsync V W)
    (start : Nat) (datasetF : Future (List V)) (optionsF : Option (Future W))
    (content : List Elem) (hOK : checkDOM list = .ok content) :
    (Processor.populateListAsync list instrA start datasetF optionsF).1 = .ok () ∧
    (Processor.populateListAsync list instrA start datasetF optionsF).2.1.children =
      list.children ++
        ((datasetF.val.map (fun d => (instrA content d (optVal optionsF)).2)).map
          elemsToDNodes).flatten ∧
    (Processor.populateListAsync list instrA start datasetF optionsF).2.2.2 =
      (datasetF.val.map (fun d =>
        max (max start datasetF.time) (optTime optionsF) +
          (instrA content d (optVal optionsF)).1)).foldl max (max start datasetF.time) ∧
    datasetF.time ≤ (Processor.populateListAsync list instrA start datasetF optionsF).2.2.2 ∧
    (∀ d ∈ datasetF.val,
      max (max start datasetF.time) (optTime optionsF) + (instrA content d (optVal optionsF)).1 ≤
        (Processor.populateListAsync list instrA start datasetF optionsF).2.2.2) ∧
    (Processor.populateListAsync list instrA start datasetF optionsF).2.2.1.calls =
      callsFor 1 (optVal optionsF) datasetF.val := by
  unfold Processor.populateListAsync
  simp only [hOK]
  rw [mapProcessAsync_spec _ _ _ instrA rfl datasetF.val ⟨[content], [], []⟩ (by simp)]
  have hget : ([content] : List Frag).getD 0 [] = content := rfl
  have hlen1 : ([content] : List Frag).length = 1 := rfl
  have hseam := appendFrags_seam ([] : List String) (callsFor 1 (optVal optionsF) datasetF.val)
    (datasetF.val.map (fun d => (instrA content d (optVal optionsF)).2)) [content]
  rw [hlen1, List.length_map] at hseam
  simp only [hget, hlen1, List.nil_append, futsFor_map_val, futsFor_foldl_time, hseam]
  refine ⟨trivial, trivial, trivial, ?_, ?_, trivial⟩
  · exact Nat.le_trans (Nat.le_max_right start datasetF.time)
      (le_foldl_max _ (max start datasetF.time))
  · intro d hd
    exact mem_le_foldl_max _ _ _ (List.mem_map.mpr ⟨d, hd, rfl⟩)

/-- Witness for claim C9, at a concrete ordered list whose dataset future
resolves at time 3. -/
theorem claim_C9_witness :
    (checkDOM ⟨"ol", [DNode.tmpl [Elem.mk "li" []]]⟩ = .ok [Elem.mk "li" []]) ∧
    3 ≤ (Processor.populateListAsync (V := Nat) (W := Unit) ⟨"ol", [DNode.tmpl [Elem.mk "li" []]]⟩
        (fun f _ _ => (2, f)) 0 ⟨3, [7]⟩ none).2.2.2 := by
  have hOK : checkDOM ⟨"ol", [DNode.tmpl [Elem.mk "li" []]]⟩ = .ok [Elem.mk "li" []] := by
    simp [checkDOM, findTemplate, checkTpl, childTagname, List.lookup, matchesTagSel,
      toLowerStr, Elem.tag]
  refine ⟨hOK, ?_⟩
  have h := claim_C9 (V := Nat) (W := Unit) ⟨"ol", [DNode.tmpl [Elem.mk "li" []]]⟩
    (fun f _ _ => (2, f)) 0 ⟨3, [7]⟩ none [Elem.mk "li" []] hOK
  exact h.2.2.2.1

/-- Validation of a non-`dl` container's template content: accepted exactly
when the content is a single element matching the required tag, a structural
mismatch otherwise. -/
lemma checkTpl_single (tg req : String) (content : List Elem)
    (hreq : childTagname tg = some req) (hdl : req ≠ "dt-dd") :
    ((checkTpl tg content = .ok content) ↔ ∃ e, content = [e] ∧ matchesTagSel e req = true) ∧
    ((¬ ∃ e, content = [e] ∧ matchesTagSel e req = true) →
      ∃ m, checkTpl tg content = .error (DOMException.typeError m)) := by
  unfold checkTpl
  rw [hreq]
  simp only []
  have h1 : (req != "dt-dd") = true := bne_iff_ne.mpr hdl
  rw [if_pos h1]
  cases content with
  | nil =>
      constructor
      · simp
      · intro _
        exact ⟨"The <template> must contain exactly 1 element.", by simp⟩
  | cons e rest =>
      cases rest with
      | nil =>
          have hh : ([e].headD (Elem.mk "" [])) = e := rfl
          by_cases hm : matchesTagSel e req = true
          · constructor
            · simp [hh, hm]
            · intro hcon
              exact absurd ⟨e, rfl, hm⟩ hcon
          · constructor
            · simp [hh, hm]
            · intro _
              exact ⟨"The <template> must contain exactly 1 <" ++ req ++ ">.",
                by simp [hh, hm]⟩
      | cons f rest2 =>
          have hlen : ((e :: f :: rest2).length != 1) = true := by simp [bne]
          constructor
          · simp [hlen]
          · intro _
            exact ⟨"The <template> must contain exactly 1 element.", by simp [hlen]⟩

/-- Claim C1: for a container whose tag name lower-cases to one of `ol`, `ul`,
`table`, `thead`, `tbody`, `tfoot`, `tr`, with required template child tag
`li`, `li`, `tbody`, `tr`, `tr`, `tr`, `td` respectively, the validator
accepts the first template's content exactly when it consists of a single
element matching the required tag; with zero children, two or more children,
or a single wrong-tagged child it raises a structural-mismatch `TypeError`. -/
theorem claim_C1 (tagName : String) (cs : List DNode) (content : List Elem) (req : String)
    (hmem : (toLowerStr tagName, req) ∈
      ([("ol", "li"), ("ul", "li"), ("table", "tbody"), ("thead", "tr"), ("tbody", "tr"),
        ("tfoot", "tr"), ("tr", "td")] : List (String × String)))
    (hfind : findTemplate cs = some content) :
    ((checkDOM ⟨tagName, cs⟩ = .ok content) ↔ ∃ e, content = [e] ∧ matchesTagSel e req = true) ∧
    ((¬ ∃ e, content = [e] ∧ matchesTagSel e req = true) →
      ∃ m, checkDOM ⟨tagName, cs⟩ = .error (DOMException.typeError m)) := by
  have hCD : checkDOM ⟨tagName, cs⟩ = checkTpl (toLowerStr tagName) content := by
    unfold checkDOM
    rw [show (HTMLElement.mk tagName cs).children = cs from rfl, hfind]
  rw [hCD]
  simp only [List.mem_cons, List.not_mem_nil, or_false, Prod.mk.injEq] at hmem
  rcases hmem with ⟨h1, h2⟩ | ⟨h1, h2⟩ | ⟨h1, h2⟩ | ⟨h1, h2⟩ | ⟨h1, h2⟩ | ⟨h1, h2⟩ | ⟨h1, h2⟩ <;>
    rw [h1] <;> subst h2
  · exact checkTpl_single "ol" "li" content rfl (by decide)
  · exact checkTpl_single "ul" "li" content rfl (by decide)
  · exact checkTpl_single "table" "tbody" content rfl (by decide)
  · exact checkTpl_single "thead" "tr" content rfl (by decide)
  · exact checkTpl_single "tbody" "tr" content rfl (by decide)
  · exact checkTpl_single "tfoot" "tr" content rfl (by decide)
  · exact checkTpl_single "tr" "td" content rfl (by decide)

/-- Witness for claim C1, at an upper-cased `<OL>` container with a valid
single-`li` template. -/
theorem claim_C1_witness :
    ((toLowerStr "OL", "li") ∈
      ([("ol", "li"), ("ul", "li"), ("table", "tbody"), ("thead", "tr"), ("tbody", "tr"),
        ("tfoot", "tr"), ("tr", "td")] : List (String × String))) ∧
    (findTemplate [DNode.tmpl [Elem.mk "li" []]] = some [Elem.mk "li" []]) ∧
    (checkDOM ⟨"OL", [DNode.tmpl [Elem.mk "li" []]]⟩ = .ok [Elem.mk "li" []]) := by
  have hm : (toLowerStr "OL", "li") ∈
      ([("ol", "li"), ("ul", "li"), ("table", "tbody"), ("thead", "tr"), ("tbody", "tr"),
        ("tfoot", "tr"), ("tr", "td")] : List (String × String)) := by decide
  have hf : findTemplate [DNode.tmpl [Elem.mk "li" []]] = some [Elem.mk "li" []] := by
    simp [findTemplate]
  refine ⟨hm, hf, ?_⟩
  have h := claim_C1 "OL" [DNode.tmpl [Elem.mk "li" []]] [Elem.mk "li" []] "li" hm hf
  exact h.1.mpr ⟨Elem.mk "li" [], rfl, by decide⟩

/-- On a flat fragment, the descendant elements are exactly the children. -/
lemma allElems_flat (c : List Elem) (h : isFlat c = true) : allElems c = c := by
  induction c with
  | nil => simp [allElems]
  | cons e rest ih =>
      cases e with
      | mk t cs =>
          simp only [isFlat, List.all_cons, Bool.and_eq_true] at h
          obtain ⟨hcs, hrest⟩ := h
          have hcs' : cs = [] := by
            simpa [Elem.children, List.isEmpty_iff] using hcs
          subst hcs'
          simp only [allElems]
          rw [ih (by simpa [isFlat] using hrest)]
          simp [allElems]

/-- On a flat forest, the contextual pre-order traversal is the plain indexed
enumeration. -/
lemma poSibs_flat (rest : List Elem) : ∀ (sibs : List Elem) (i : Nat),
    rest.all (fun e => e.children.isEmpty) = true →
    poSibs sibs i 0 rest = flatEntries sibs i rest := by
  induction rest with
  | nil => intro sibs i _; simp [poSibs, flatEntries]
  | cons e rs ih =>
      intro sibs i h
      cases e with
      | mk t cs =>
          simp only [List.all_cons, Bool.and_eq_true] at h
          obtain ⟨hcs, hrs⟩ := h
          have hcs' : cs = [] := by
            simpa [Elem.children, List.isEmpty_iff] using hcs
          subst hcs'
          simp only [poSibs, flatEntries, List.nil_append]
          rw [ih sibs (i + 1) (by simpa using hrs)]

/-- On a flat fragment, document order with context is the indexed enumeration. -/
lemma preorder_flat (c : List Elem) (h : isFlat c = true) :
    preorder c = flatEntries c 0 c := by
  unfold preorder
  exact poSibs_flat c c 0 (by simpa [isFlat] using h)

/-- Indexed enumeration distributes over append. -/
lemma flatEntries_append (sibs : List Elem) (xs : List Elem) : ∀ (ys : List Elem) (i : Nat),
    flatEntries sibs i (xs ++ ys) =
      flatEntries sibs i xs ++ flatEntries sibs (i + xs.length) ys := by
  induction xs with
  | nil => intro ys i; simp [flatEntries]
  | cons x xs ih =>
      intro ys i
      simp only [List.cons_append, flatEntries, List.length_cons, List.append_eq]
      rw [ih ys (i + 1)]
      have h : i + 1 + xs.length = i + (xs.length + 1) := by omega
      rw [h]

/-- A search over an indexed enumeration whose matcher rejects every position
finds nothing. -/
lemma find?_flatEntries_none (m : Elem → List Elem → Nat → Bool) (sibs : List Elem) :
    ∀ (xs : List Elem) (i : Nat),
    (∀ (k : Nat) (hk : k < xs.length), m (xs.get ⟨k, hk⟩) sibs (i + k) = false) →
    (flatEntries sibs i xs).find? (fun x => m x.1 x.2.1 x.2.2.1) = none := by
  intro xs
  induction xs with
  | nil => intro i _; rfl
  | cons x xs ih =>
      intro i h
      have h0 : m x sibs i = false := by
        have := h 0 (by simp)
        simpa using this
      simp only [flatEntries]
      rw [List.find?_cons_of_neg _ (by simpa using h0)]
      exact ih (i + 1) (fun k hk => by
        have := h (k + 1) (by simpa using Nat.succ_lt_succ hk)
        simpa [Nat.add_assoc, Nat.add_comm 1 k] using this)

/-- Position of the first matching element of a flat fragment, when the
matcher rejects the first `D.length` children and accepts the next one. -/
lemma qsIndex_flat_eq (m : Elem → List Elem → Nat → Bool) (c D E : List Elem) (e : Elem)
    (hc : c = D ++ e :: E) (hflat : isFlat c = true)
    (hD : ∀ (k : Nat) (hk : k < D.length), m (D.get ⟨k, hk⟩) c k = false)
    (he : m e c D.length = true) :
    qsIndex c m = (D.length : Int) := by
  subst hc
  unfold qsIndex
  rw [preorder_flat _ hflat, flatEntries_append]
  rw [List.find?_append]
  rw [find?_flatEntries_none m (D ++ e :: E) D 0 (fun k hk => by simpa using hD k hk)]
  simp only [Option.none_or, Nat.zero_add, flatEntries]
  rw [List.find?_cons_of_pos _ (by simpa using he)]
  simp

/-- An element cannot be both a `dd` and a `dt`. -/
lemma isDd_not_isDt (e : Elem) (h : isDd e = true) : isDt e = false := by
  unfold isDd matchesTagSel at h
  unfold isDt matchesTagSel
  rw [eq_of_beq h]
  decide

/-- An element cannot be both a `dt` and a `dd`. -/
lemma isDt_not_isDd (e : Elem) (h : isDt e = true) : isDd e = false := by
  unfold isDt matchesTagSel at h
  unfold isDd matchesTagSel
  rw [eq_of_beq h]
  decide

/-- A list with a matching member splits at its last match. -/
lemma exists_last_split (p : Elem → Bool) (c : List Elem) (h : c.any p = true) :
    ∃ D e E, c = D ++ e :: E ∧ p e = true ∧ E.all (fun x => !p x) = true := by
  induction c with
  | nil => simp at h
  | cons a rest ih =>
      cases hrest : rest.any p with
      | true =>
          obtain ⟨D, e, E, hsplit, hpe, hE⟩ := ih hrest
          exact ⟨a :: D, e, E, by rw [hsplit]; rfl, hpe, hE⟩
      | false =>
          have hpa : p a = true := by
            simp only [List.any_cons, hrest, Bool.or_false] at h
            exact h
          refine ⟨[], a, rest, rfl, hpa, ?_⟩
          have hall : ∀ x ∈ rest, p x = false := by
            intro x hx
            cases hpx : p x with
            | false => rfl
            | true =>
                have hthis : rest.any p = true := List.any_eq_true.mpr ⟨x, hx, hpx⟩
                rw [hrest] at hthis
                cases hthis
          simp only [List.all_eq_true]
          intro x hx
          simp [hall x hx]

/-- A list with a matching member splits at its first match. -/
lemma exists_first_split (p : Elem → Bool) (c : List Elem) (h : c.any p = true) :
    ∃ P e Q, c = P ++ e :: Q ∧ p e = true ∧ P.all (fun x => !p x) = true := by
  induction c with
  | nil => simp at h
  | cons a rest ih =>
      cases hpa : p a with
      | true => exact ⟨[], a, rest, rfl, hpa, rfl⟩
      | false =>
          have hrest : rest.any p = true := by
            simp only [List.any_cons, hpa, Bool.false_or] at h
            exact h
          obtain ⟨P, e, Q, hsplit, hpe, hP⟩ := ih hrest
          refine ⟨a :: P, e, Q, by rw [hsplit]; rfl, hpe, ?_⟩
          simp [List.all_cons, hpa, hP]

/-- Dropping a satisfying prefix continues past it. -/
lemma dropWhile_append_of_all {α : Type} (p : α → Bool) (l₁ l₂ : List α)
    (h : l₁.all p = true) : (l₁ ++ l₂).dropWhile p = l₂.dropWhile p := by
  induction l₁ with
  | nil => rfl
  | cons x xs ih =>
      simp only [List.all_cons, Bool.and_eq_true] at h
      simp [List.dropWhile_cons, h.1, ih h.2]

/-- Position found by `querySelector('dt:last-of-type')` on a flat fragment
that splits at its last `dt`: the split point. -/
lemma qsLast_of_split (D E : List Elem) (e : Elem) (hflat : isFlat (D ++ e :: E) = true)
    (he : isDt e = true) (hE : E.all (fun x => !isDt x) = true) :
    qsIndex (D ++ e :: E) (lastOfTypeSel "dt") = (D.length : Int) := by
  apply qsIndex_flat_eq (lastOfTypeSel "dt") (D ++ e :: E) D E e rfl hflat
  · intro k hk
    have hmem : e ∈ (D ++ e :: E).drop (k + 1) := by
      rw [List.drop_append_of_le_length (by omega)]
      exact List.mem_append_right _ (List.mem_cons_self e E)
    have hall : (((D ++ e :: E).drop (k + 1)).all
        (fun s => !(matchesTagSel s "dt"))) = false := by
      rw [Bool.eq_false_iff]
      intro hall
      have h2 := List.all_eq_true.mp hall e hmem
      rw [show matchesTagSel e "dt" = true from he] at h2
      simp at h2
    unfold lastOfTypeSel
    rw [hall, Bool.and_false]
  · unfold lastOfTypeSel
    have hdrop : (D ++ e :: E).drop (D.length + 1) = E := by
      rw [show D ++ e :: E = (D ++ [e]) ++ E by simp]
      rw [show D.length + 1 = (D ++ [e]).length by simp]
      exact List.drop_left (D ++ [e]) E
    rw [hdrop, show matchesTagSel e "dt" = true from he, Bool.true_and]
    exact hE

/-- Position found by `querySelector('dd:first-of-type')` on a flat fragment
that splits at its first `dd`: the split point. -/
lemma qsFirst_of_split (P Q : List Elem) (f : Elem) (hflat : isFlat (P ++ f :: Q) = true)
    (hf : isDd f = true) (hP : P.all (fun x => !isDd x) = true) :
    qsIndex (P ++ f :: Q) (firstOfTypeSel "dd") = (P.length : Int) := by
  apply qsIndex_flat_eq (firstOfTypeSel "dd") (P ++ f :: Q) P Q f rfl hflat
  · intro k hk
    have hk2 := List.all_eq_true.mp hP (P.get ⟨k, hk⟩) (List.get_mem P k hk)
    have hk3 : matchesTagSel (P.get ⟨k, hk⟩) "dd" = false := by
      simpa [isDd] using hk2
    unfold firstOfTypeSel
    rw [hk3, Bool.false_and]
  · unfold firstOfTypeSel
    have htake : (P ++ f :: Q).take P.length = P := List.take_left P (f :: Q)
    rw [htake, show matchesTagSel f "dd" = true from hf, Bool.true_and]
    simpa [isDd] using hP

/-- A satisfying prefix satisfies the predicate throughout. -/
lemma takeWhile_all {α : Type} (p : α → Bool) (l : List α) :
    (l.takeWhile p).all p = true := by
  induction l with
  | nil => rfl
  | cons x xs ih =>
      by_cases hx : p x = true
      · simp [List.takeWhile_cons, hx, ih]
      · simp [List.takeWhile_cons, hx]

/-- The `dl` branch of the validator succeeds exactly when every one of its
four checks passes. -/
lemma checkTpl_dl_ok_iff (content : List Elem) :
    (checkTpl "dl" content = .ok content) ↔
      (2 ≤ content.length ∧
       (allElems content).any isDt = true ∧
       (allElems content).any isDd = true ∧
       ((allElems content).any (fun e => !(isDt e || isDd e))) = false ∧
       qsIndex content (lastOfTypeSel "dt") < qsIndex content (firstOfTypeSel "dd")) := by
  unfold checkTpl
  rw [show childTagname "dl" = some "dt-dd" from rfl]
  simp only []
  rw [if_neg (by decide : ¬(("dt-dd" != "dt-dd") = true))]
  constructor
  · intro hok
    by_cases h1 : content.length < 2
    · rw [if_pos h1] at hok; exact Except.noConfusion hok
    rw [if_neg h1] at hok
    by_cases h2 : (((allElems content).find? isDt).isNone ||
        ((allElems content).find? isDd).isNone) = true
    · rw [if_pos h2] at hok; exact Except.noConfusion hok
    rw [if_neg h2] at hok
    by_cases h3 : ((allElems content).any (fun e => !(isDt e || isDd e))) = true
    · rw [if_pos h3] at hok; exact Except.noConfusion hok
    rw [if_neg h3] at hok
    by_cases h4 : qsIndex content (lastOfTypeSel "dt") ≥ qsIndex content (firstOfTypeSel "dd")
    · rw [if_pos h4] at hok; exact Except.noConfusion hok
    refine ⟨by omega, ?_, ?_, Bool.eq_false_iff.mpr h3, by omega⟩
    · cases hf : (allElems content).find? isDt with
      | none => exact absurd (by rw [hf]; simp) h2
      | some x =>
          exact List.any_eq_true.mpr ⟨x, List.mem_of_find?_eq_some hf, List.find?_some hf⟩
    · cases hf : (allElems content).find? isDd with
      | none => exact absurd (by rw [hf]; simp) h2
      | some x =>
          exact List.any_eq_true.mpr ⟨x, List.mem_of_find?_eq_some hf, List.find?_some hf⟩
  · rintro ⟨g1, g2, g3, g4, g5⟩
    obtain ⟨x, hxmem, hx⟩ := List.any_eq_true.mp g2
    obtain ⟨y, hymem, hy⟩ := List.any_eq_true.mp g3
    have hf1 : ((allElems content).find? isDt).isNone = false := by
      cases hf : (allElems content).find? isDt with
      | none => exact absurd hx (by simpa using List.find?_eq_none.mp hf x hxmem)
      | some z => rfl
    have hf2 : ((allElems content).find? isDd).isNone = false := by
      cases hf : (allElems content).find? isDd with
      | none => exact absurd hy (by simpa using List.find?_eq_none.mp hf y hymem)
      | some z => rfl
    rw [if_neg (by omega), if_neg (by rw [hf1, hf2]; simp), if_neg (by rw [g4]; decide),
      if_neg (by omega)]

/-- The `dl` branch of the validator never fails with anything but a
structural-mismatch `TypeError`. -/
lemma checkTpl_dl_cases (content : List Elem) :
    checkTpl "dl" content = .ok content ∨
    ∃ m, checkTpl "dl" content = .error (DOMException.typeError m) := by
  unfold checkTpl
  rw [show childTagname "dl" = some "dt-dd" from rfl]
  simp only []
  rw [if_neg (by decide : ¬(("dt-dd" != "dt-dd") = true))]
  split_ifs
  · exact Or.inr ⟨_, rfl⟩
  · exact Or.inr ⟨_, rfl⟩
  · exact Or.inr ⟨_, rfl⟩
  · exact Or.inr ⟨_, rfl⟩
  · exact Or.inl rfl

/-- On flat content, the `dl` branch of the validator accepts exactly the
contents accepted by the specification's description: at least one `dt`, at
least one `dd`, nothing else, and all `dt` before all `dd`. -/
lemma checkTpl_dl_flat_iff (content : List Elem) (hflat : isFlat content = true) :
    (checkTpl "dl" content = .ok content) ↔ dlSpecAccepts content = true := by
  rw [checkTpl_dl_ok_iff]
  unfold dlSpecAccepts
  rw [allElems_flat content hflat]
  constructor
  · rintro ⟨g1, g2, g3, g4, g5⟩
    obtain ⟨D, e, E, hcD, heDt, hEdt⟩ := exists_last_split isDt content g2
    obtain ⟨P, f, Q, hcP, hfDd, hPdd⟩ := exists_first_split isDd content g3
    have hqL : qsIndex content (lastOfTypeSel "dt") = (D.length : Int) := by
      rw [hcD]
      exact qsLast_of_split D E e (hcD ▸ hflat) heDt hEdt
    have hqF : qsIndex content (firstOfTypeSel "dd") = (P.length : Int) := by
      rw [hcP]
      exact qsFirst_of_split P Q f (hcP ▸ hflat) hfDd hPdd
    rw [hqL, hqF] at g5
    have hDP : D.length < P.length := by exact_mod_cast g5
    have hE_eq : E = content.drop (D.length + 1) := by
      rw [hcD, show D ++ e :: E = (D ++ [e]) ++ E by simp,
        show D.length + 1 = (D ++ [e]).length by simp]
      exact (List.drop_left (D ++ [e]) E).symm
    have hQ_eq : Q = content.drop (P.length + 1) := by
      rw [hcP, show P ++ f :: Q = (P ++ [f]) ++ Q by simp,
        show P.length + 1 = (P ++ [f]).length by simp]
      exact (List.drop_left (P ++ [f]) Q).symm
    have hQE : Q = E.drop (P.length - D.length) := by
      rw [hE_eq, List.drop_drop, hQ_eq]
      congr 1
      omega
    have hQdt : ∀ z ∈ Q, isDt z = false := by
      intro z hz
      rw [hQE] at hz
      have hzE : z ∈ E := List.drop_subset _ E hz
      simpa using List.all_eq_true.mp hEdt z hzE
    have hord : (content.dropWhile (fun e => !isDd e)).all (fun e => !isDt e) = true := by
      rw [hcP, dropWhile_append_of_all _ P (f :: Q) hPdd]
      rw [List.dropWhile_cons, if_neg (by rw [hfDd]; simp)]
      simp only [List.all_cons, Bool.and_eq_true]
      constructor
      · simp [isDd_not_isDt f hfDd]
      · rw [List.all_eq_true]
        intro z hz
        simp [hQdt z hz]
    have hall : content.all (fun e => isDt e || isDd e) = true := by
      rw [List.all_eq_true]
      intro z hz
      cases hzz : (isDt z || isDd z) with
      | true => rfl
      | false =>
          have hcon : content.any (fun e => !(isDt e || isDd e)) = true :=
            List.any_eq_true.mpr ⟨z, hz, by rw [hzz]; rfl⟩
          rw [g4] at hcon
          cases hcon
    simp [g2, g3, hall, hord]
  · rintro hspec
    simp only [Bool.and_eq_true] at hspec
    obtain ⟨⟨⟨hdt, hdd⟩, hall⟩, hord⟩ := hspec
    have hAB : content.takeWhile (fun e => !isDd e) ++ content.dropWhile (fun e => !isDd e) =
        content := List.takeWhile_append_dropWhile _ content
    set A := content.takeWhile (fun e => !isDd e) with hA
    set B := content.dropWhile (fun e => !isDd e) with hB
    have hAdd : A.all (fun e => !isDd e) = true := takeWhile_all _ content
    have hmemC : ∀ z : Elem, z ∈ A ∨ z ∈ B → z ∈ content := by
      intro z hz
      rw [← hAB]
      rcases hz with hz | hz
      · exact List.mem_append_left B hz
      · exact List.mem_append_right A hz
    have hAdt : A.all isDt = true := by
      rw [List.all_eq_true]
      intro z hz
      have h1 := List.all_eq_true.mp hall z (hmemC z (Or.inl hz))
      have h2 := List.all_eq_true.mp hAdd z hz
      cases hzz : isDt z with
      | true => rfl
      | false =>
          rw [hzz] at h1
          simp at h1 h2
          rw [h1] at h2
          cases h2
    have hBdt : B.all (fun e => !isDt e) = true := hord
    have hBdd : B.all isDd = true := by
      rw [List.all_eq_true]
      intro z hz
      have h1 := List.all_eq_true.mp hall z (hmemC z (Or.inr hz))
      have h2 := List.all_eq_true.mp hBdt z hz
      cases hzz : isDd z with
      | true => rfl
      | false =>
          rw [hzz] at h1
          simp at h1 h2
          rw [h2] at h1
          cases h1
    have hAne : A ≠ [] := by
      intro hAnil
      obtain ⟨z, hzmem, hzdt⟩ := List.any_eq_true.mp hdt
      rw [← hAB, hAnil, List.nil_append] at hzmem
      have := List.all_eq_true.mp hBdt z hzmem
      rw [hzdt] at this
      cases this
    have hBne : B ≠ [] := by
      intro hBnil
      obtain ⟨z, hzmem, hzdd⟩ := List.any_eq_true.mp hdd
      rw [← hAB, hBnil, List.append_nil] at hzmem
      have := List.all_eq_true.mp hAdd z hzmem
      rw [hzdd] at this
      cases this
    have hlenA : 1 ≤ A.length := List.length_pos.mpr hAne
    have hlenB : 1 ≤ B.length := List.length_pos.mpr hBne
    have hlen : 2 ≤ content.length := by
      rw [← hAB, List.length_append]
      omega
    have hany3 : (content.any (fun e => !(isDt e || isDd e))) = false := by
      rw [Bool.eq_false_iff]
      intro hcon
      obtain ⟨z, hzmem, hz⟩ := List.any_eq_true.mp hcon
      have := List.all_eq_true.mp hall z hzmem
      rw [this] at hz
      cases hz
    -- position of the last `dt`: the last element of `A`
    have hAsplit : A.dropLast ++ A.getLast hAne :: B = content := by
      rw [← hAB]
      rw [show A.dropLast ++ A.getLast hAne :: B = (A.dropLast ++ [A.getLast hAne]) ++ B by simp]
      rw [List.dropLast_append_getLast hAne]
    have heDt : isDt (A.getLast hAne) = true :=
      List.all_eq_true.mp hAdt _ (List.getLast_mem hAne)
    have hqL : qsIndex content (lastOfTypeSel "dt") = (A.dropLast.length : Int) := by
      rw [← hAsplit]
      exact qsLast_of_split A.dropLast B (A.getLast hAne) (hAsplit ▸ hflat) heDt hBdt
    -- position of the first `dd`: the head of `B`
    obtain ⟨f, Q, hBfQ⟩ : ∃ f Q, B = f :: Q := by
      cases hBcase : B with
      | nil => exact absurd hBcase hBne
      | cons f Q => exact ⟨f, Q, rfl⟩
    have hfDd : isDd f = true := by
      have := List.all_eq_true.mp hBdd f (by rw [hBfQ]; exact List.mem_cons_self f Q)
      exact this
    have hAdd2 : A.all (fun x => !isDd x) = true := hAdd
    have hPsplit : A ++ f :: Q = content := by rw [← hBfQ]; exact hAB
    have hqF : qsIndex content (firstOfTypeSel "dd") = (A.length : Int) := by
      rw [← hPsplit]
      exact qsFirst_of_split A Q f (hPsplit ▸ hflat) hfDd hAdd2
    refine ⟨hlen, hdt, hdd, hany3, ?_⟩
    rw [hqL, hqF, List.length_dropLast]
    have : A.length - 1 < A.length := by omega
    exact_mod_cast this

/-- Counterexample to claim C2 as stated: the template content consisting of a
single `dt` child that wraps a `dd` satisfies every condition of the claim —
it has a `dt` element and a `dd` element, no other element types, and in
document order the `dt` precedes the `dd` — yet the validator rejects it (its
first check counts only direct children, of which there is one). -/
theorem claim_C2_counterexample :
    dlSpecAccepts [Elem.mk "dt" [Elem.mk "dd" []]] = true ∧
    checkDOM ⟨"dl", [DNode.tmpl [Elem.mk "dt" [Elem.mk "dd" []]]]⟩ =
      .error (.typeError "The <template> must contain at least 2 elements.") := by
  constructor
  · simp [dlSpecAccepts, allElems, isDt, isDd, matchesTagSel, toLowerStr, Elem.tag,
      List.any, List.all, List.dropWhile]
  · simp [checkDOM, findTemplate, checkTpl, childTagname, List.lookup, matchesTagSel,
      toLowerStr, Elem.tag, allElems, isDt, isDd, List.find?, List.all, List.any]

/-- Claim C2, amended: restricted to `dl` containers whose template content is
flat (no nested elements — the ordinary shape of a definition list's
template), the validator accepts exactly when the content has at least one
`dt`, at least one `dd`, no other element types, and all `dt` precede all
`dd`; otherwise it raises a structural-mismatch `TypeError`. On non-flat
content the code's checks (child count, descendant queries, reference-based
index comparison) diverge from the claim, as the counterexample shows. -/
theorem claim_C2 (tagName : String) (cs : List DNode) (content : List Elem)
    (htag : toLowerStr tagName = "dl") (hfind : findTemplate cs = some content)
    (hflat : isFlat content = true) :
    ((checkDOM ⟨tagName, cs⟩ = .ok content) ↔ dlSpecAccepts content = true) ∧
    (dlSpecAccepts content = false →
      ∃ m, checkDOM ⟨tagName, cs⟩ = .error (DOMException.typeError m)) := by
  have hCD : checkDOM ⟨tagName, cs⟩ = checkTpl "dl" content := by
    unfold checkDOM
    rw [show (HTMLElement.mk tagName cs).children = cs from rfl, hfind, htag]
  rw [hCD]
  refine ⟨checkTpl_dl_flat_iff content hflat, ?_⟩
  intro hno
  cases checkTpl_dl_cases content with
  | inl hok =>
      have hacc := (checkTpl_dl_flat_iff content hflat).mp hok
      rw [hno] at hacc
      cases hacc
  | inr h => exact h

/-- Witness for the amended claim C2, at a concrete flat `dt`-then-`dd`
template (accepted) derived through the amended equivalence. -/
theorem claim_C2_witness :
    (toLowerStr "dl" = "dl") ∧
    (findTemplate [DNode.tmpl [Elem.mk "dt" [], Elem.mk "dd" []]] =
      some [Elem.mk "dt" [], Elem.mk "dd" []]) ∧
    (isFlat [Elem.mk "dt" [], Elem.mk "dd" []] = true) ∧
    (checkDOM ⟨"dl", [DNode.tmpl [Elem.mk "dt" [], Elem.mk "dd" []]]⟩ =
      .ok [Elem.mk "dt" [], Elem.mk "dd" []]) := by
  have h1 : toLowerStr "dl" = "dl" := by decide
  have h2 : findTemplate [DNode.tmpl [Elem.mk "dt" [], Elem.mk "dd" []]] =
      some [Elem.mk "dt" [], Elem.mk "dd" []] := by simp [findTemplate]
  have h3 : isFlat [Elem.mk "dt" [], Elem.mk "dd" []] = true := by
    simp [isFlat, Elem.children]
  refine ⟨h1, h2, h3, ?_⟩
  have h := claim_C2 "dl" [DNode.tmpl [Elem.mk "dt" [], Elem.mk "dd" []]]
    [Elem.mk "dt" [], Elem.mk "dd" []] h1 h2 h3
  apply h.1.mpr
  simp [dlSpecAccepts, allElems, isDt, isDd, matchesTagSel, toLowerStr, Elem.tag,
    List.any, List.all, List.dropWhile]

end TemplateProcessor
